import Mathlib

/-!
Verification of the repeater-chain convolution engine
(`repeater_algorithm.py`, class `RepeaterChainSimulation`).

Arrays of probabilities and Werner parameters are embedded as `List ℚ`
(the source works with NumPy float arrays; we use exact rationals so that
every definition is executable and concrete runs can be evaluated inside
proofs).  The direct-convolution engine (`use_fft = False`, source lines
205-216) is embedded exactly; the FFT engine (lines 155-203) is embedded
separately over `ℂ` with the textbook DFT that `np.fft` implements.  The
`max_k` series bound (source lines 97-116) is computed there with floating
point logarithms; it is threaded through the embedding as an explicit
parameter, and the theorems below hold for every value of that bound.

The join kernels (`protocol_units.join_links_compatible`,
`protocol_units_efficient.join_links_efficient`) are not part of the given
sources; they are modelled from the specification (section 4.1), see
`join_links` below.
-/

/-- Pointwise sum of two arrays, modelling NumPy `+=` on equal-length
arrays. -/
def addL (a b : List ℚ) : List ℚ := List.zipWith (· + ·) a b

/-- Scalar multiple of an array, modelling NumPy `coeff * arr`. -/
def smulL (c : ℚ) (a : List ℚ) : List ℚ := a.map (fun x => c * x)

/-- First `n` entries of the discrete convolution `np.convolve(a, b)[:n]`
(source line 209 followed by the `[:trunc]` slices on lines 212/214). -/
def convTrunc (a b : List ℚ) (n : ℕ) : List ℚ :=
  (List.range n).map fun t =>
    ((List.range (t + 1)).map fun j => a.getD j 0 * b.getD (t - j) 0).sum

/-- Zero-pad an array on the right to length `n`, modelling source lines
206-207 (`np.concatenate([convolved, np.zeros(trunc - len(convolved))])`);
for inputs no longer than `n` this is exactly the source computation. -/
def padTo (a : List ℚ) (n : ℕ) : List ℚ :=
  (a ++ List.replicate (n - a.length) 0).take n

/-- Right shift performed by `iterative_convolution_helper`, source lines
149-151: only when `shift <= trunc` is the array prefixed with `shift`
zeros and re-truncated; otherwise it is left untouched. -/
def shiftFunc (f : List ℚ) (shift n : ℕ) : List ℚ :=
  if shift ≤ n then (List.replicate shift 0 ++ f).take n else f

/-- Coefficient of the `k`-th accumulated term of the direct-convolution
loop: source line 211 (`p_swap*(1-p_swap)**(k)`) when `p_swap` is given,
`1` otherwise (line 214). -/
def swapCoeff (p : Option ℚ) (k : ℕ) : ℚ :=
  match p with
  | some ps => ps * (1 - ps) ^ k
  | none => 1

/-- Initialisation of the accumulator, source lines 143-147:
`sum_convolved[:len(first_func)] = p_swap * first_func` (or `first_func`
when no `p_swap` is given) inside a zero array of length `trunc`. -/
def firstTerm (g : List ℚ) (p : Option ℚ) (n : ℕ) : List ℚ :=
  (List.range n).map fun t =>
    if t < g.length then (match p with | some ps => ps | none => 1) * g.getD t 0 else 0

/-- State of the direct-convolution loop after `m` iterations
(source lines 205-215): first component is the running `convolved`
array, second is the running `sum_convolved` accumulator. -/
def convAccum (f g : List ℚ) (p : Option ℚ) (n : ℕ) : ℕ → List ℚ × List ℚ
  | 0 => (padTo g n, firstTerm g p n)
  | m + 1 =>
    let st := convAccum f g p n m
    let c := convTrunc st.1 (f.take n) n
    (c, addL st.2 (smulL (swapCoeff p (m + 1)) c))

/-- Direct-convolution branch of `iterative_convolution_helper`
(source lines 140-151 and 205-216, i.e. the `use_fft = False` engine).
The loop `for k in range(1, max_k)` performs `max_k - 1` iterations. -/
def iterative_convolution_helper_direct
    (func first_func : List ℚ) (n shift : ℕ) (p : Option ℚ) (max_k : ℕ) : List ℚ :=
  (convAccum (shiftFunc func shift n) first_func p n (max_k - 1)).2

/-- The mathematical `k`-fold truncated convolution `g * f^k` (each step
truncated to the first `n` entries, which leaves those entries exact). -/
def kfoldConv (g f : List ℚ) (n : ℕ) : ℕ → List ℚ
  | 0 => padTo g n
  | k + 1 => convTrunc (kfoldConv g f n k) (f.take n) n

/-- Embedding of `iterative_convolution` for 1-D inputs (source lines
60-138 with `is_dm = False`, where the reshape/transpose round trip is
the identity): the truncation is the length of `func`, a missing
`first_func` defaults to `func`, and the series bound `mk` replaces the
float-logarithm computation of lines 97-116. -/
def iterative_convolution
    (func : List ℚ) (shift : ℕ) (first_func : Option (List ℚ))
    (p : Option ℚ) (mk : ℕ) : List ℚ :=
  iterative_convolution_helper_direct func (first_func.getD func) func.length shift p mk

/-- Cut-off discipline selector (`cut_type`, source line 431 and the spec's
section 4.1). -/
inductive CutType
  | memory_time
  | fidelity
  | run_time
deriving DecidableEq, BEq, Repr

/-- The `evaluate_func` tags handed to the join kernel by
`entanglement_swap` / `destillation` (source lines 265-285, 346-380). -/
inductive EvalFunc
  | one
  | w1w2
  | halfPlusHalfW1w2
  | halfMinusHalfW1w2
  | w1PlusW2Plus4w1w2
deriving DecidableEq, Repr

/-- All pairs of arrival times below `n`. -/
def pairList (n : ℕ) : List (ℕ × ℕ) :=
  (List.range n).flatMap fun a => (List.range n).map fun b => (a, b)

/-- Modelled from the spec: whether the pair of arrival times `(t1, t2)`
survives the cut-off (spec section 4.1, "Cut-off semantics"); the function
`dec` is the decoherence factor `exp(-dt / t_coh)` as a function of the
memory-storage gap `dt`.  The sources `protocol_units.py` and
`protocol_units_efficient.py` that implement this are not part of the
repository snapshot under verification. -/
def cutSurvives (ct : CutType) (cutoff : ℚ) (dec : ℕ → ℚ)
    (w1 w2 : List ℚ) (t1 t2 : ℕ) : Bool :=
  match ct with
  | .memory_time => decide (((max t1 t2 - min t1 t2 : ℕ) : ℚ) ≤ cutoff)
  | .run_time => decide (((max t1 t2 : ℕ) : ℚ) ≤ cutoff)
  | .fidelity =>
      decide (cutoff ≤ (if t1 ≤ t2 then w1.getD t1 0 else w2.getD t2 0) *
        dec (max t1 t2 - min t1 t2))

/-- Modelled from the spec: the weight attached to the pair `(t1, t2)` for
each `evaluate_func` tag (spec section 4.1). -/
def evalWeight (ef : EvalFunc) (dec : ℕ → ℚ) (w1 w2 : List ℚ) (t1 t2 : ℕ) : ℚ :=
  let d := dec (max t1 t2 - min t1 t2)
  match ef with
  | .one => 1
  | .w1w2 => w1.getD t1 0 * w2.getD t2 0 * d
  | .halfPlusHalfW1w2 => 1 / 2 + w1.getD t1 0 * w2.getD t2 0 * d / 2
  | .halfMinusHalfW1w2 => 1 / 2 - w1.getD t1 0 * w2.getD t2 0 * d / 2
  | .w1PlusW2Plus4w1w2 =>
      (w1.getD t1 0 + w2.getD t2 0 + 4 * w1.getD t1 0 * w2.getD t2 0 * d) / 6

/-- Modelled from the spec: the join-links kernel (spec section 4.1).  The
success branch (`ycut = True`) collects the pairs that survive the cut-off
and complete at `t = max(t1, t2)`; the failure branch (`ycut = False`)
collects the pairs killed by the cut-off, dated at `t = min(t1, t2)` (the
extra `mt_cut` delay is added later through the `shift` argument of
`iterative_convolution`, source lines 259-262 and 273-275).  Both
`join_links_compatible` and `join_links_efficient` compute this same
marginal (the spec calls the split an internal optimization, section 9). -/
def join_links (pmf1 pmf2 w1 w2 : List ℚ) (ycut : Bool) (cutoff : ℚ)
    (ct : CutType) (dec : ℕ → ℚ) (ef : EvalFunc) : List ℚ :=
  (List.range pmf1.length).map fun t =>
    (((pairList pmf1.length).filter fun p =>
        (if ycut then max p.1 p.2 == t else min p.1 p.2 == t) &&
          (cutSurvives ct cutoff dec w1 w2 p.1 p.2 == ycut)).map fun p =>
      pmf1.getD p.1 0 * pmf2.getD p.2 0 * evalWeight ef dec w1 w2 p.1 p.2).sum

/-- IEEE value produced by a NumPy division: a finite number, a signed
infinity, or NaN. -/
inductive FVal
  | fin (q : ℚ)
  | pinf
  | ninf
  | nan
deriving DecidableEq, Repr

/-- NumPy division under `errstate(divide='ignore', invalid='ignore')`
(source lines 297-299, 392-393): `0/0` is NaN, `x/0` is a signed
infinity. -/
def fdiv (a b : ℚ) : FVal :=
  if b ≠ 0 then .fin (a / b)
  else if a = 0 then .nan
  else if 0 < a then .pinf else .ninf

/-- The scrub `np.where(np.isnan(w), 1., w)` (source lines 300, 394, 478). -/
def scrubNaN : FVal → FVal
  | .nan => .fin 1
  | v => v

/-- The clamp of source lines 479-480 (`w[w > 1] = 1; w[w < 0] = 0`); a
positive infinity compares greater than 1 and a negative one less than 0,
so both are clamped.  NaN never reaches this point (it is scrubbed on line
478); the NaN case is given the same value the scrub would produce. -/
def clampW : FVal → ℚ
  | .fin q => min 1 (max 0 q)
  | .pinf => 1
  | .ninf => 0
  | .nan => 1

/-- Normalisation of the Werner numerator by the output pmf performed
inside `entanglement_swap` (lines 297-300) and `destillation` (lines
392-394): entry 0 is left untouched, every other entry is divided and
NaN-scrubbed. -/
def divide_w (state_out pmf : List ℚ) : List FVal :=
  (List.range state_out.length).map fun t =>
    if t = 0 then .fin (state_out.getD 0 0)
    else scrubNaN (fdiv (state_out.getD t 0) (pmf.getD t 0))

/-- Final Werner hygiene of `compute_unit` (source lines 476-480): scrub
NaN to 1, then clamp into `[0, 1]`. -/
def scrub_clamp (l : List FVal) : List ℚ :=
  l.map fun v => clampW (scrubNaN v)

/-- Backend state of the simulator that the embedded engine depends on.
`dec` is the decoherence oracle (the join kernels' `exp(-dt/t_coh)`,
with `t_coh = none` meaning infinite coherence); `maxKSel` stands for the
float-logarithm series bound of `iterative_convolution` (source lines
97-116), applied to the convolved array, the shift and the optional
`p_swap` of each call; `efficient` is the flag of source line 54 and
`useCache` the one of line 49. -/
structure SimConfig where
  dec : Option ℚ → ℕ → ℚ
  maxKSel : List ℚ → ℕ → Option ℚ → ℕ
  efficient : Bool := true
  useCache : Bool := false

/-- The protocol unit to compute (`unit_kind`, source line 400). -/
inductive UnitKind
  | swap
  | dist
deriving DecidableEq, Repr

/-- Scalar parameters of one protocol unit, mirroring the keys read by
`compute_unit` (source lines 427-443).  `t_coh = none` models the default
`np.inf`; `cutoff?` models an explicit `"cutoff"` key; `mt_cut`, `w_cut`
and `rt_cut` carry the per-type cut-offs with their dictionary defaults
already substituted. -/
structure UnitParams where
  p_gen : ℚ
  p_swap : ℚ
  w0 : ℚ
  t_coh : Option ℚ
  cut_type : CutType
  cutoff? : Option ℚ
  mt_cut : ℚ
  w_cut : ℚ
  rt_cut : ℚ
deriving DecidableEq, Repr

/-- Cut-off resolution of `compute_unit`, source lines 432-443. -/
def resolveCutoff (P : UnitParams) : ℚ :=
  match P.cutoff? with
  | some c => c
  | none =>
    match P.cut_type with
    | .memory_time => P.mt_cut
    | .fidelity => if P.w_cut = 0 then 1 / 10 ^ 16 else P.w_cut
    | .run_time => P.rt_cut

/-- The fidelity range check of source line 461, embedded verbatim:
`not (cutoff >= 0. or cutoff < 1.)`. -/
def fidelityCheckFails (c : ℚ) : Bool :=
  !(decide (0 ≤ c) || decide (c < 1))

/-- The shift fed to the cut-off retry convolution: `cutoff` for a
memory-time cut, `0` otherwise (source lines 259-262, 341-344). -/
def shiftOf (ct : CutType) (cutoff : ℚ) : ℕ :=
  if ct = .memory_time then cutoff.floor.toNat else 0

/-- Embedding of `RepeaterChainSimulation.entanglement_swap` (source lines
218-306) over the exact direct-convolution engine; returns the delivery
pmf and the pre-clamp Werner array. -/
def entanglement_swap (cfg : SimConfig) (p_swap cutoff : ℚ) (ct : CutType)
    (t_coh : Option ℚ) (pmf1 w1 pmf2 w2 : List ℚ) : List ℚ × List FVal :=
  let dec := cfg.dec t_coh
  let shift := shiftOf ct cutoff
  let pf := join_links pmf1 pmf2 w1 w2 false cutoff ct dec .one
  let ps := join_links pmf1 pmf2 w1 w2 true cutoff ct dec .one
  let pmf_cutoff := iterative_convolution pf shift (some ps) none (cfg.maxKSel pf shift none)
  let pmf_swap := iterative_convolution pmf_cutoff 0 none (some p_swap)
    (cfg.maxKSel pmf_cutoff 0 (some p_swap))
  let state_suc := join_links pmf1 pmf2 w1 w2 true cutoff ct dec .w1w2
  let state_prep := iterative_convolution pf shift (some state_suc) none
    (cfg.maxKSel pf shift none)
  let state_out := iterative_convolution pmf_cutoff 0 (some state_prep) (some p_swap)
    (cfg.maxKSel pmf_cutoff 0 (some p_swap))
  (pmf_swap, divide_w state_out pmf_swap)

/-- Embedding of `RepeaterChainSimulation.destillation` (source lines
309-395) over the exact direct-convolution engine. -/
def destillation (cfg : SimConfig) (cutoff : ℚ) (ct : CutType)
    (t_coh : Option ℚ) (pmf1 w1 pmf2 w2 : List ℚ) : List ℚ × List FVal :=
  let dec := cfg.dec t_coh
  let shift := shiftOf ct cutoff
  let pf := join_links pmf1 pmf2 w1 w2 false cutoff ct dec .one
  let pss := join_links pmf1 pmf2 w1 w2 true cutoff ct dec .halfPlusHalfW1w2
  let ps_dist := iterative_convolution pf shift (some pss) none (cfg.maxKSel pf shift none)
  let psf := join_links pmf1 pmf2 w1 w2 true cutoff ct dec .halfMinusHalfW1w2
  let pf_dist := iterative_convolution pf shift (some psf) none (cfg.maxKSel pf shift none)
  let pmf_dist := iterative_convolution pf_dist 0 (some ps_dist) none
    (cfg.maxKSel pf_dist 0 none)
  let state_suc := join_links pmf1 pmf2 w1 w2 true cutoff ct dec .w1PlusW2Plus4w1w2
  let state_prep := iterative_convolution pf shift (some state_suc) none
    (cfg.maxKSel pf shift none)
  let state_out := iterative_convolution pf_dist 0 (some state_prep) none
    (cfg.maxKSel pf_dist 0 none)
  (pmf_dist, divide_w state_out pmf_dist)

/-- Embedding of `RepeaterChainSimulation.compute_unit` (source lines
398-490): default the second link to the first, resolve the cut-off, run
the type checks of lines 459-462, dispatch to swap or distillation, and
apply the final NaN scrub and clamp of lines 476-480.  The vacuous
float-typing checks on `p_gen`, `p_swap`, `t_coh` (always real here) are
omitted; the integer check on time cut-offs is rendered as an
integrality test on the rational value. -/
def compute_unit (cfg : SimConfig) (P : UnitParams) (pmf1 w1 : List ℚ)
    (pmf2? w2? : Option (List ℚ)) (kind : UnitKind) :
    Except String (List ℚ × List ℚ) :=
  let pmf2 := pmf2?.getD pmf1
  let w2 := w2?.getD w1
  let cutoff := resolveCutoff P
  if (P.cut_type == CutType.memory_time || P.cut_type == CutType.run_time)
      && !cutoff.isInt then
    .error "Time cut-off must be an integer."
  else if P.cut_type == CutType.fidelity && fidelityCheckFails cutoff then
    .error "Fidelity cut-off must be a real number between 0 and 1."
  else
    let r := match kind with
      | .swap => entanglement_swap cfg P.p_swap cutoff P.cut_type P.t_coh pmf1 w1 pmf2 w2
      | .dist => destillation cfg cutoff P.cut_type P.t_coh pmf1 w1 pmf2 w2
    .ok (r.1, scrub_clamp r.2)

/-- Parameters of a symmetric (nested) run: the scalar per-unit parameters,
the protocol tuple of integer tags (`0 = swap`, `1 = dist`), and the
truncation horizon `t_trunc`. -/
structure SymParams where
  core : UnitParams
  protocol : List ℤ
  t_trunc : ℕ
deriving DecidableEq, Repr

/-- Elementary-link waiting time distribution of the symmetric driver
(source lines 590-592): `pmf[0] = 0` and `pmf[t] = p_gen (1-p_gen)^(t-1)`
for `1 ≤ t < t_trunc`. -/
def elementary_pmf (p : ℚ) (n : ℕ) : List ℚ :=
  0 :: (List.range (n - 1)).map fun k => p * (1 - p) ^ k

/-- Elementary-link Werner array (source line 593): constant `w0`. -/
def elementary_w (w0 : ℚ) (n : ℕ) : List ℚ :=
  List.replicate n w0

/-- One protocol step of the symmetric driver (source lines 607-619):
tag `0` runs a swap unit, tag `1` a distillation unit, and any other tag
falls through both branches leaving the state untouched. -/
def unit_step (cfg : SimConfig) (core : UnitParams) (op : ℤ)
    (s : List ℚ × List ℚ) : Except String (List ℚ × List ℚ) :=
  if op = 0 then compute_unit cfg core s.1 s.2 none none .swap
  else if op = 1 then compute_unit cfg core s.1 s.2 none none .dist
  else .ok s

/-- Cache key: the parameter set without `protocol` and `t_trunc`
(popped on source lines 495-496), together with a protocol prefix. -/
abbrev CacheKey := UnitParams × List ℤ

/-- The memoization cache, an association list with the most recent
insertion in front (dictionary writes overwrite, lookups below take the
first hit). -/
abbrev SimCache := List (CacheKey × (List ℚ × List ℚ))

/-- Dictionary lookup in the cache. -/
def cacheFind (c : SimCache) (k : CacheKey) : Option (List ℚ × List ℚ) :=
  (c.find? fun e => decide (e.1 = k)).map (·.2)

/-- The prefix scan of `check_cache` (source lines 501-516): walk `i` from
the full protocol length down to 1, and accept the first cached prefix
whose stored pmf is at least `tNew` long; with no hit, start from level
0. -/
def check_cache_go (core : UnitParams) (protocol : List ℤ) (tNew : ℕ)
    (cache : SimCache) : ℕ → ℕ × Option (List ℚ × List ℚ)
  | 0 => (0, none)
  | i + 1 =>
    match cacheFind cache (core, protocol.take (i + 1)) with
    | some r =>
        if tNew ≤ r.1.length then (i + 1, some r)
        else check_cache_go core protocol tNew cache i
    | none => check_cache_go core protocol tNew cache i

/-- Embedding of `RepeaterChainSimulation.check_cache` (source lines
493-518, `all_level = False`). -/
def check_cache (P : SymParams) (cache : SimCache) :
    ℕ × Option (List ℚ × List ℚ) :=
  check_cache_go P.core P.protocol P.t_trunc cache P.protocol.length

/-- The main loop of `nested_protocol` (source lines 600-628): apply the
remaining operations one by one, caching each prefix result when the
cache is enabled.  `done` is the prefix already consumed. -/
def nested_loop (cfg : SimConfig) (core : UnitParams) :
    List ℤ → List ℤ → (List ℚ × List ℚ) → SimCache →
    Except String ((List ℚ × List ℚ) × SimCache)
  | _, [], s, cache => .ok (s, cache)
  | done, op :: rest, s, cache => do
    let s' ← unit_step cfg core op s
    let cache' := if cfg.useCache then ((core, done ++ [op]), s') :: cache else cache
    nested_loop cfg core (done ++ [op]) rest s' cache'

/-- Embedding of `RepeaterChainSimulation.nested_protocol` (source lines
520-635, `all_level = False`, scalar cut-offs): consult the cache for the
longest usable prefix, start from it or from the elementary link, and run
the remaining protocol steps. -/
def nested_protocol (cfg : SimConfig) (P : SymParams) (cache : SimCache) :
    Except String ((List ℚ × List ℚ) × SimCache) :=
  let ic := if cfg.useCache then check_cache P cache else (0, none)
  let s0 := match ic.2 with
    | some r => r
    | none => (elementary_pmf P.core.p_gen P.t_trunc, elementary_w P.core.w0 P.t_trunc)
  nested_loop cfg P.core (P.protocol.take ic.1) (P.protocol.drop ic.1) s0 cache

/-- One segment state of the asymmetric driver: `none` marks a dead
(consumed) segment. -/
abbrev SegList := List (Option (List ℚ × List ℚ))

/-- The scan loop of `find_right_segment` (source lines 638-644), with
explicit fuel (`r` only grows, bounded by the list length). -/
def find_right_segment_go (segments : SegList) : ℕ → ℕ → Except String ℕ
  | _, 0 => .error "No non-None segment found"
  | r, fuel + 1 =>
    if r < segments.length then
      match segments.getD r none with
      | none => find_right_segment_go segments (r + 1) fuel
      | some _ => .ok r
    else .error "No non-None segment found"

/-- Embedding of `RepeaterChainSimulation.find_right_segment` (source
lines 638-644): the smallest index `r > start` holding a live segment,
or a `ValueError` when none exists. -/
def find_right_segment (segments : SegList) (start : ℕ) : Except String ℕ :=
  find_right_segment_go segments (start + 1) (segments.length + 1)

/-- A swap step of the asymmetric driver (source lines 716-722): locate
the nearest live right neighbour `j`, merge segments `idx` and `j` with a
swap unit, store the result at `j` and mark `idx` dead.  A dead segment
at `idx` itself would make the source crash on unpacking; that is
rendered as an error value. -/
def asym_swap_step (cfg : SimConfig) (core : UnitParams)
    (segments : SegList) (idx : ℕ) : Except String SegList := do
  let j ← find_right_segment segments idx
  match segments.getD idx none, segments.getD j none with
  | some cur, some nxt => do
    let r ← compute_unit cfg core cur.1 cur.2 (some nxt.1) (some nxt.2) .swap
    pure ((segments.set idx none).set j (some r))
  | _, _ => .error "dead segment unpacked"

/-- The initial value of the `efficient` backend flag
(`self.efficient = True`, source line 54). -/
def initial_efficient : Bool := true

/-- The join-kernel selection of `entanglement_swap`, source line 248:
the efficient path is taken exactly when the `efficient` flag is set and
the cut type is `memory_time`. -/
def swap_uses_efficient_join (efficient : Bool) (ct : CutType) : Bool :=
  efficient && (ct == CutType.memory_time)

/-- The backend flag the heterogeneous asymmetric driver leaves in place:
source lines 736-737 contain only a comment (`# self.efficient = False`),
so the flag is passed through unchanged. -/
def hetero_efficient (efficient : Bool) : Bool := efficient

/-- The default cut type assumed by `compute_unit` when the parameter set
carries none (source line 431). -/
def default_cut_type : CutType := .memory_time

/-- The DFT computed by `np.fft.fft(x, n)`: the input is zero-padded or
truncated to length `n` and `X[k] = sum_m x[m] exp(-2 pi i m k / n)`. -/
noncomputable def np_fft (x : List ℚ) (n : ℕ) : List ℂ :=
  (List.range n).map fun k =>
    ((List.range n).map fun m =>
      ((x.getD m 0 : ℚ) : ℂ) *
        Complex.exp (-(2 * (Real.pi : ℂ) * Complex.I * ((m * k : ℕ) : ℂ)) / (n : ℂ))).sum

/-- The inverse DFT computed by `np.fft.ifft(y, n)`:
`x[t] = (1/n) sum_k y[k] exp(2 pi i k t / n)`. -/
noncomputable def np_ifft (y : List ℂ) (n : ℕ) : List ℂ :=
  (List.range n).map fun t =>
    (1 / (n : ℂ)) * ((List.range n).map fun k =>
      y.getD k 0 *
        Complex.exp ((2 * (Real.pi : ℂ) * Complex.I * ((k * t : ℕ) : ℂ)) / (n : ℂ))).sum

/-- The zero-padded FFT length (source lines 156-162 with the default
`zero_padding_size = None`): the next power of two of `2 * trunc - 1`. -/
def fft_shape (n : ℕ) : ℕ := 2 ^ Nat.clog 2 (2 * n - 1)

/-- The pointwise Fourier-domain geometric sum (source lines 185-189):
`p_swap G / (1 - (1 - p_swap) F)` when `p_swap` is given, `G / (1 - F)`
otherwise. -/
noncomputable def fft_quotient (cf ff : List ℂ) (p : Option ℚ) (n : ℕ) : List ℂ :=
  (List.range n).map fun k =>
    match p with
    | some ps => (ps : ℂ) * cf.getD k 0 / (1 - (1 - (ps : ℂ)) * ff.getD k 0)
    | none => cf.getD k 0 / (1 - ff.getD k 0)

/-- The full-length inverse transform of the FFT branch of
`iterative_convolution_helper` (source lines 149-189, CPU path, default
padding), before the truncation of line 201. -/
noncomputable def iterative_convolution_helper_fft_raw
    (func first_func : List ℚ) (n shift : ℕ) (p : Option ℚ) : List ℂ :=
  np_ifft
    (fft_quotient (np_fft first_func (fft_shape n))
      (np_fft (shiftFunc func shift n) (fft_shape n)) p (fft_shape n))
    (fft_shape n)

/-- The warning condition of source lines 191-199: the modulus of the
last entry of the *length-`shape` padded* inverse transform (index
`shape - 1`, evaluated before the truncation on line 201) exceeds
`10e-16 = 10^(-15)`. -/
noncomputable def fft_padding_warning
    (func first_func : List ℚ) (n shift : ℕ) (p : Option ℚ) : Prop :=
  1 / 10 ^ 15 <
    Complex.abs ((iterative_convolution_helper_fft_raw func first_func n shift p).getD
      (fft_shape n - 1) 0)

/-- The value returned by the FFT branch (source line 201): the real
parts of the first `trunc` entries of the padded inverse transform; it is
returned whether or not the padding warning fired. -/
noncomputable def iterative_convolution_helper_fft
    (func first_func : List ℚ) (n shift : ℕ) (p : Option ℚ) : List ℝ :=
  ((iterative_convolution_helper_fft_raw func first_func n shift p).take n).map
    Complex.re

/-- Decoherence oracle for infinite coherence time: the factor
`exp(-dt / t_coh)` is identically 1 when `t_coh = inf`. -/
def decOne : Option ℚ → ℕ → ℚ := fun _ _ => 1

/-- A concrete series bound used in closed-form runs: one term
(the loop `range(1, 1)` is empty). -/
def mkOne : List ℚ → ℕ → Option ℚ → ℕ := fun _ _ _ => 1

/-- Concrete backend without memoization. -/
def cfg0 : SimConfig :=
  { dec := decOne, maxKSel := mkOne, efficient := true, useCache := false }

/-- Concrete backend with memoization enabled. -/
def cfgCache : SimConfig :=
  { dec := decOne, maxKSel := mkOne, efficient := true, useCache := true }

/-- Concrete valid parameter set with a memory-time cut-off. -/
def core_mt : UnitParams :=
  { p_gen := 1/2, p_swap := 1/2, w0 := 9/10, t_coh := none,
    cut_type := .memory_time, cutoff? := some 2,
    mt_cut := 2, w_cut := 1/10^8, rt_cut := 2 }

/-- Concrete parameter set with a fidelity cut-off whose value 2 lies
outside `[0, 1)`. -/
def core_fid : UnitParams :=
  { p_gen := 1/2, p_swap := 1/2, w0 := 9/10, t_coh := none,
    cut_type := .fidelity, cutoff? := none,
    mt_cut := 2, w_cut := 2, rt_cut := 2 }

/-- Concrete symmetric run: trivial protocol, horizon 3. -/
def symP1 : SymParams := { core := core_mt, protocol := [7], t_trunc := 3 }

/-- The same run re-requested at the smaller horizon 2. -/
def symP2 : SymParams := { core := core_mt, protocol := [7], t_trunc := 2 }

/-- The cache state left behind by running `symP1` from an empty cache. -/
def cacheAfterFirst : SimCache :=
  [((core_mt, [7]), (elementary_pmf (1/2) 3, elementary_w (9/10) 3))]

theorem getD_take (l : List ℚ) : ∀ (n t : ℕ), t < n → (l.take n).getD t 0 = l.getD t 0 := by
  induction l with
  | nil => intro n t _; simp
  | cons a l ih =>
    intro n t ht
    cases n with
    | zero => omega
    | succ n =>
      cases t with
      | zero => simp
      | succ t => simpa using ih n t (by omega)

theorem convTrunc_length (a b : List ℚ) (n : ℕ) : (convTrunc a b n).length = n := by
  simp [convTrunc]

theorem padTo_length (a : List ℚ) (n : ℕ) : (padTo a n).length = n := by
  simp [padTo]; omega

theorem firstTerm_length (g : List ℚ) (p : Option ℚ) (n : ℕ) :
    (firstTerm g p n).length = n := by
  simp [firstTerm]

theorem smulL_length (c : ℚ) (a : List ℚ) : (smulL c a).length = a.length := by
  simp [smulL]

theorem addL_length (a b : List ℚ) : (addL a b).length = min a.length b.length := by
  simp [addL]

theorem addL_getD (a b : List ℚ) (n : ℕ) (ha : a.length = n) (hb : b.length = n)
    (t : ℕ) : (addL a b).getD t 0 = a.getD t 0 + b.getD t 0 := by
  rcases lt_or_ge t n with ht | ht
  · have h1 : t < a.length := by omega
    have h2 : t < b.length := by omega
    have h3 : t < (addL a b).length := by rw [addL_length]; omega
    rw [List.getD_eq_getElem _ _ h1, List.getD_eq_getElem _ _ h2,
      List.getD_eq_getElem _ _ h3]
    simp [addL]
  · have h1 : a.length ≤ t := by omega
    have h2 : b.length ≤ t := by omega
    have h3 : (addL a b).length ≤ t := by rw [addL_length]; omega
    rw [List.getD_eq_default _ _ h1, List.getD_eq_default _ _ h2,
      List.getD_eq_default _ _ h3]
    norm_num

theorem smulL_getD (c : ℚ) (a : List ℚ) (t : ℕ) :
    (smulL c a).getD t 0 = c * a.getD t 0 := by
  rcases lt_or_ge t a.length with ht | ht
  · have h1 : t < (smulL c a).length := by rw [smulL_length]; omega
    rw [List.getD_eq_getElem _ _ ht, List.getD_eq_getElem _ _ h1]
    simp [smulL]
  · have h1 : (smulL c a).length ≤ t := by rw [smulL_length]; omega
    rw [List.getD_eq_default _ _ ht, List.getD_eq_default _ _ h1]
    norm_num

theorem map_range_getD (F : ℕ → ℚ) (n t : ℕ) (ht : t < n) :
    ((List.range n).map F).getD t 0 = F t := by
  have h1 : t < ((List.range n).map F).length := by simpa using ht
  rw [List.getD_eq_getElem _ _ h1]
  simp

theorem padTo_getD (g : List ℚ) (n t : ℕ) (ht : t < n) :
    (padTo g n).getD t 0 = (if t < g.length then g.getD t 0 else 0) := by
  unfold padTo
  rw [getD_take _ _ _ ht]
  split
  · next h => exact List.getD_append _ _ _ _ h
  · next h =>
    rw [List.getD_append_right _ _ _ _ (by omega : g.length ≤ t)]
    simp [List.getD_eq_getElem?_getD]

theorem firstTerm_getD (g : List ℚ) (p : Option ℚ) (n t : ℕ) (ht : t < n) :
    (firstTerm g p n).getD t 0 =
      (match p with | some ps => ps | none => 1) * (padTo g n).getD t 0 := by
  unfold firstTerm
  rw [map_range_getD _ _ _ ht, padTo_getD _ _ _ ht]
  split <;> simp

theorem convAccum_fst (f g : List ℚ) (p : Option ℚ) (n : ℕ) :
    ∀ m, (convAccum f g p n m).1 = kfoldConv g f n m := by
  intro m
  induction m with
  | zero => rfl
  | succ m ih => simp [convAccum, kfoldConv, ih]

theorem convAccum_snd_length (f g : List ℚ) (p : Option ℚ) (n : ℕ) :
    ∀ m, (convAccum f g p n m).2.length = n := by
  intro m
  induction m with
  | zero => simpa [convAccum] using firstTerm_length g p n
  | succ m ih => simp [convAccum, addL_length, smulL_length, convTrunc_length, ih]

theorem convAccum_snd_getD (f g : List ℚ) (p : Option ℚ) (n m t : ℕ) :
    (convAccum f g p n m).2.getD t 0 =
      (firstTerm g p n).getD t 0 +
        ((List.range m).map fun j =>
          swapCoeff p (j + 1) * (kfoldConv g f n (j + 1)).getD t 0).sum := by
  induction m with
  | zero => simp [convAccum]
  | succ m ih =>
    have h1 : (convAccum f g p n (m + 1)).2 =
        addL (convAccum f g p n m).2
          (smulL (swapCoeff p (m + 1))
            (convTrunc (convAccum f g p n m).1 (f.take n) n)) := rfl
    rw [h1, addL_getD _ _ n (convAccum_snd_length f g p n m)
        (by rw [smulL_length, convTrunc_length]) t, ih, smulL_getD,
      convAccum_fst, List.range_succ, List.map_append, List.sum_append]
    simp [kfoldConv]
    ring

/-- C6 (amended): with the FFT disabled and `p_swap` supplied, the direct
convolution loop returns the series whose `k = 0` term is `p_swap * g`
and whose term containing the `k`-fold convolution `g * f^k`
(`k = 1 ... max_k - 1`) carries the coefficient
`p_swap * (1 - p_swap)^k` — the exponent is `k`, not the `k - 1` stated
by the claim (source line 211 computes `p_swap*(1-p_swap)**(k)`).  Here
`f` is the shifted array actually used by the loop. -/
theorem direct_conv_geometric_series (func g : List ℚ) (n shift : ℕ) (p : ℚ)
    (K : ℕ) (hg : g.length ≤ n) (t : ℕ) (ht : t < n) :
    (iterative_convolution_helper_direct func g n shift (some p) K).getD t 0 =
      p * (padTo g n).getD t 0 +
        ((List.range (K - 1)).map fun j =>
          p * (1 - p) ^ (j + 1) *
            (kfoldConv g (shiftFunc func shift n) n (j + 1)).getD t 0).sum := by
  have _hg := hg
  unfold iterative_convolution_helper_direct
  rw [convAccum_snd_getD, firstTerm_getD _ _ _ _ ht]
  simp [swapCoeff]

/-- C6 witness for `direct_conv_geometric_series`: a concrete instance
with `f = g = [1]`, `p_swap = 1/2`, `max_k = 2`. -/
theorem direct_conv_geometric_series_witness :
    (([(1 : ℚ)].length ≤ 1 ∧ (0 : ℕ) < 1) ∧
      (iterative_convolution_helper_direct [1] [1] 1 0 (some (1/2)) 2).getD 0 0 =
        1/2 * (padTo [1] 1).getD 0 0 +
          ((List.range (2 - 1)).map fun j =>
            1/2 * (1 - 1/2) ^ (j + 1) *
              (kfoldConv [1] (shiftFunc [1] 0 1) 1 (j + 1)).getD 0 0).sum) :=
  ⟨⟨by decide, by decide⟩,
    direct_conv_geometric_series [1] [1] 1 0 (1/2) 2 (by decide) 0 (by decide)⟩

/-- C6 counterexample: for `f = g = [1]`, `p_swap = 1/2`, `max_k = 2`
(one loop iteration, `k = 1`), the code returns
`[p + p(1-p)^1] = [3/4]`, while the claimed coefficient
`p_swap (1-p_swap)^(k-1)` together with the claimed `k = 0` term
`p_swap * g` predicts `[p + p(1-p)^0] = [1]`. -/
theorem direct_conv_coeff_counterexample :
    iterative_convolution_helper_direct [1] [1] 1 0 (some (1/2)) 2 = [3/4] ∧
    iterative_convolution_helper_direct [1] [1] 1 0 (some (1/2)) 2 ≠
      [1/2 * 1 + 1/2 * (1 - 1/2) ^ (1 - 1 : ℕ) * 1] := by
  constructor <;>
    norm_num [iterative_convolution_helper_direct, convAccum, padTo, firstTerm,
      convTrunc, addL, smulL, swapCoeff, shiftFunc, List.range_succ]

/-- C7 (amended): for `shift ≤ T_trunc` the helper operates on the
shifted array `f_shifted[t] = f[t - shift]` zero-padded on the left (all
zeros when `shift = T_trunc`), but for `shift > T_trunc` the guard on
source line 149 skips the shift entirely and the original array is used
unshifted. -/
theorem shift_semantics (f : List ℚ) (shift n : ℕ) :
    (shift ≤ n → ∀ t, t < n →
      (shiftFunc f shift n).getD t 0 =
        if t < shift then 0 else f.getD (t - shift) 0) ∧
    (n < shift → shiftFunc f shift n = f) := by
  constructor
  · intro h t ht
    unfold shiftFunc
    rw [if_pos h, getD_take _ _ _ ht]
    split
    · next hts =>
        rw [List.getD_append _ _ _ _ (by simpa using hts)]
        simp [List.getD_eq_getElem?_getD]
    · next hts =>
        rw [List.getD_append_right _ _ _ _ (by simp; omega)]
        simp
  · intro h
    unfold shiftFunc
    rw [if_neg (by omega)]

/-- C7 witness for `shift_semantics`: a concrete in-range shift and a
concrete overlong shift. -/
theorem shift_semantics_witness :
    ((shiftFunc [(5 : ℚ), 7] 1 2).getD 1 0 =
        if 1 < 1 then 0 else [(5 : ℚ), 7].getD (1 - 1) 0) ∧
    shiftFunc [(5 : ℚ), 7] 3 2 = [5, 7] :=
  ⟨(shift_semantics [5, 7] 1 2).1 (by decide) 1 (by decide),
    (shift_semantics [5, 7] 3 2).2 (by decide)⟩

/-- C7 counterexample: with `T_trunc = 1` and `shift = 2 ≥ T_trunc` the
array fed to the series is the unshifted `[1]`, not the all-zero array
the claim requires. -/
theorem shift_beyond_trunc_counterexample :
    shiftFunc [1] 2 1 = [1] ∧ shiftFunc [1] 2 1 ≠ [0] := by
  constructor <;> decide

theorem convTrunc_getD_zero (a b : List ℚ) (n : ℕ) (ha : a.getD 0 0 = 0) :
    (convTrunc a b n).getD 0 0 = 0 := by
  cases n with
  | zero => simp [convTrunc]
  | succ n =>
    rw [convTrunc, map_range_getD _ _ _ (Nat.succ_pos n)]
    have ha' : a[0]?.getD 0 = 0 := by simpa [List.getD_eq_getElem?_getD] using ha
    simp [List.range_succ, ha']

theorem padTo_getD_zero (g : List ℚ) (n : ℕ) (hg : g.getD 0 0 = 0) :
    (padTo g n).getD 0 0 = 0 := by
  cases n with
  | zero => simp [padTo]
  | succ n =>
    rw [padTo_getD _ _ _ (Nat.succ_pos n)]
    split
    · exact hg
    · rfl

theorem firstTerm_getD_zero (g : List ℚ) (p : Option ℚ) (n : ℕ)
    (hg : g.getD 0 0 = 0) : (firstTerm g p n).getD 0 0 = 0 := by
  cases n with
  | zero => simp [firstTerm]
  | succ n =>
    unfold firstTerm
    rw [map_range_getD _ _ _ (Nat.succ_pos n)]
    have hg' : g[0]?.getD 0 = 0 := by simpa [List.getD_eq_getElem?_getD] using hg
    split <;> simp [hg']

theorem convAccum_getD_zero (f g : List ℚ) (p : Option ℚ) (n : ℕ)
    (hg : g.getD 0 0 = 0) :
    ∀ m, (convAccum f g p n m).1.getD 0 0 = 0 ∧ (convAccum f g p n m).2.getD 0 0 = 0 := by
  intro m
  induction m with
  | zero => exact ⟨padTo_getD_zero g n hg, firstTerm_getD_zero g p n hg⟩
  | succ m ih =>
    have hc : (convTrunc (convAccum f g p n m).1 (f.take n) n).getD 0 0 = 0 :=
      convTrunc_getD_zero _ _ _ ih.1
    refine ⟨hc, ?_⟩
    have h1 : (convAccum f g p n (m + 1)).2 =
        addL (convAccum f g p n m).2
          (smulL (swapCoeff p (m + 1))
            (convTrunc (convAccum f g p n m).1 (f.take n) n)) := rfl
    rw [h1, addL_getD _ _ n (convAccum_snd_length f g p n m)
        (by rw [smulL_length, convTrunc_length]), ih.2, smulL_getD, hc]
    ring

theorem helper_direct_getD_zero (func g : List ℚ) (n shift : ℕ) (p : Option ℚ)
    (K : ℕ) (hg : g.getD 0 0 = 0) :
    (iterative_convolution_helper_direct func g n shift p K).getD 0 0 = 0 :=
  (convAccum_getD_zero _ _ _ _ hg _).2

theorem helper_direct_length (func g : List ℚ) (n shift : ℕ) (p : Option ℚ)
    (K : ℕ) : (iterative_convolution_helper_direct func g n shift p K).length = n :=
  convAccum_snd_length _ _ _ _ _

theorem iterative_convolution_length (func : List ℚ) (shift : ℕ)
    (ff : Option (List ℚ)) (p : Option ℚ) (mk : ℕ) :
    (iterative_convolution func shift ff p mk).length = func.length :=
  helper_direct_length _ _ _ _ _ _

theorem iterative_convolution_getD_zero (func : List ℚ) (shift : ℕ)
    (ff : Option (List ℚ)) (p : Option ℚ) (mk : ℕ)
    (hg : (ff.getD func).getD 0 0 = 0) :
    (iterative_convolution func shift ff p mk).getD 0 0 = 0 :=
  helper_direct_getD_zero _ _ _ _ _ _ hg

theorem join_links_length (pmf1 pmf2 w1 w2 : List ℚ) (ycut : Bool) (cutoff : ℚ)
    (ct : CutType) (dec : ℕ → ℚ) (ef : EvalFunc) :
    (join_links pmf1 pmf2 w1 w2 ycut cutoff ct dec ef).length = pmf1.length := by
  simp [join_links]

theorem join_links_getD_zero (pmf1 pmf2 w1 w2 : List ℚ) (ycut : Bool)
    (cutoff : ℚ) (ct : CutType) (dec : ℕ → ℚ) (ef : EvalFunc)
    (hz1 : pmf1.getD 0 0 = 0) (hz2 : pmf2.getD 0 0 = 0) :
    (join_links pmf1 pmf2 w1 w2 ycut cutoff ct dec ef).getD 0 0 = 0 := by
  rcases Nat.eq_zero_or_pos pmf1.length with h | h
  · have : (join_links pmf1 pmf2 w1 w2 ycut cutoff ct dec ef).length = 0 := by
      rw [join_links_length, h]
    rw [List.getD_eq_default _ _ (by omega)]
  · rw [join_links, map_range_getD _ _ _ h]
    apply List.sum_eq_zero
    intro x hx
    simp only [List.mem_map] at hx
    obtain ⟨q, hq, rfl⟩ := hx
    have hcond := (List.mem_filter.mp hq).2
    rw [Bool.and_eq_true] at hcond
    cases ycut with
    | true =>
      have hmax : max q.1 q.2 = 0 := by simpa using hcond.1
      have h1 : q.1 = 0 := by omega
      have h2 : q.2 = 0 := by omega
      rw [h1, hz1]
      ring
    | false =>
      have hmin : min q.1 q.2 = 0 := by simpa using hcond.1
      rcases Nat.eq_zero_or_pos q.1 with h1 | h1
      · rw [h1, hz1]; ring
      · have h2 : q.2 = 0 := by omega
        rw [h2, hz2]; ring

theorem divide_w_length (so pmf : List ℚ) : (divide_w so pmf).length = so.length := by
  simp [divide_w]

theorem scrub_clamp_length (l : List FVal) : (scrub_clamp l).length = l.length := by
  simp [scrub_clamp]

theorem clampW_scrub_mem (v : FVal) :
    0 ≤ clampW (scrubNaN v) ∧ clampW (scrubNaN v) ≤ 1 := by
  cases v with
  | fin q =>
    constructor
    · exact le_min (by norm_num) (le_max_left 0 q)
    · exact min_le_left 1 _
  | pinf => simp [clampW, scrubNaN]
  | ninf => simp [clampW, scrubNaN]
  | nan => simp [clampW, scrubNaN]

theorem scrub_clamp_getD_mem (l : List FVal) (t : ℕ) :
    0 ≤ (scrub_clamp l).getD t 0 ∧ (scrub_clamp l).getD t 0 ≤ 1 := by
  rcases lt_or_ge t l.length with ht | ht
  · have h1 : t < (scrub_clamp l).length := by rw [scrub_clamp_length]; omega
    rw [List.getD_eq_getElem _ _ h1]
    have : (scrub_clamp l)[t] = clampW (scrubNaN l[t]) := by
      simp [scrub_clamp]
    rw [this]
    exact clampW_scrub_mem _
  · rw [List.getD_eq_default _ _ (by rw [scrub_clamp_length]; omega)]
    norm_num

theorem divide_w_scrub_getD_zero (so pmf : List ℚ) (h : so.getD 0 0 = 0) :
    (scrub_clamp (divide_w so pmf)).getD 0 0 = 0 := by
  rcases Nat.eq_zero_or_pos so.length with hl | hl
  · rw [List.getD_eq_default _ _ (by rw [scrub_clamp_length, divide_w_length]; omega)]
  · have h1 : 0 < (divide_w so pmf).length := by rw [divide_w_length]; omega
    have h2 : 0 < (scrub_clamp (divide_w so pmf)).length := by
      rw [scrub_clamp_length]; omega
    rw [List.getD_eq_getElem _ _ h2]
    have e1 : (scrub_clamp (divide_w so pmf))[0] =
        clampW (scrubNaN ((divide_w so pmf)[0])) := by
      simp [scrub_clamp]
    have e2 : (divide_w so pmf)[0] = FVal.fin (so.getD 0 0) := by
      simp [divide_w]
    rw [e1, e2, h]
    simp [scrubNaN, clampW]

theorem entanglement_swap_spec (cfg : SimConfig) (ps cutoff : ℚ) (ct : CutType)
    (tc : Option ℚ) (pmf1 w1 pmf2 w2 : List ℚ)
    (hz1 : pmf1.getD 0 0 = 0) (hz2 : pmf2.getD 0 0 = 0) :
    (entanglement_swap cfg ps cutoff ct tc pmf1 w1 pmf2 w2).1.length = pmf1.length ∧
    (entanglement_swap cfg ps cutoff ct tc pmf1 w1 pmf2 w2).1.getD 0 0 = 0 ∧
    (entanglement_swap cfg ps cutoff ct tc pmf1 w1 pmf2 w2).2.length = pmf1.length ∧
    (scrub_clamp (entanglement_swap cfg ps cutoff ct tc pmf1 w1 pmf2 w2).2).getD 0 0 = 0 := by
  simp only [entanglement_swap]
  refine ⟨?_, ?_, ?_, ?_⟩
  · rw [iterative_convolution_length, iterative_convolution_length, join_links_length]
  · apply iterative_convolution_getD_zero
    simp only [Option.getD_none]
    apply iterative_convolution_getD_zero
    simp only [Option.getD_some]
    exact join_links_getD_zero _ _ _ _ _ _ _ _ _ hz1 hz2
  · rw [divide_w_length, iterative_convolution_length, iterative_convolution_length,
      join_links_length]
  · apply divide_w_scrub_getD_zero
    apply iterative_convolution_getD_zero
    simp only [Option.getD_some]
    apply iterative_convolution_getD_zero
    simp only [Option.getD_some]
    exact join_links_getD_zero _ _ _ _ _ _ _ _ _ hz1 hz2

theorem destillation_spec (cfg : SimConfig) (cutoff : ℚ) (ct : CutType)
    (tc : Option ℚ) (pmf1 w1 pmf2 w2 : List ℚ)
    (hz1 : pmf1.getD 0 0 = 0) (hz2 : pmf2.getD 0 0 = 0) :
    (destillation cfg cutoff ct tc pmf1 w1 pmf2 w2).1.length = pmf1.length ∧
    (destillation cfg cutoff ct tc pmf1 w1 pmf2 w2).1.getD 0 0 = 0 ∧
    (destillation cfg cutoff ct tc pmf1 w1 pmf2 w2).2.length = pmf1.length ∧
    (scrub_clamp (destillation cfg cutoff ct tc pmf1 w1 pmf2 w2).2).getD 0 0 = 0 := by
  simp only [destillation]
  refine ⟨?_, ?_, ?_, ?_⟩
  · rw [iterative_convolution_length, iterative_convolution_length, join_links_length]
  · apply iterative_convolution_getD_zero
    simp only [Option.getD_some]
    apply iterative_convolution_getD_zero
    simp only [Option.getD_some]
    exact join_links_getD_zero _ _ _ _ _ _ _ _ _ hz1 hz2
  · rw [divide_w_length, iterative_convolution_length, iterative_convolution_length,
      join_links_length]
  · apply divide_w_scrub_getD_zero
    apply iterative_convolution_getD_zero
    simp only [Option.getD_some]
    apply iterative_convolution_getD_zero
    simp only [Option.getD_some]
    exact join_links_getD_zero _ _ _ _ _ _ _ _ _ hz1 hz2

theorem compute_unit_props (cfg : SimConfig) (P : UnitParams) (kind : UnitKind)
    (pmf1 w1 pmf2 w2 : List ℚ)
    (hz1 : pmf1.getD 0 0 = 0) (hz2 : pmf2.getD 0 0 = 0)
    (hc1 : ((P.cut_type == CutType.memory_time || P.cut_type == CutType.run_time)
        && !(resolveCutoff P).isInt) = false)
    (hc2 : (P.cut_type == CutType.fidelity && fidelityCheckFails (resolveCutoff P)) = false) :
    ∃ pmf w, compute_unit cfg P pmf1 w1 (some pmf2) (some w2) kind = .ok (pmf, w) ∧
      pmf.length = pmf1.length ∧ w.length = pmf1.length ∧
      pmf.getD 0 0 = 0 ∧ w.getD 0 0 = 0 ∧
      ∀ t, 0 ≤ w.getD t 0 ∧ w.getD t 0 ≤ 1 := by
  unfold compute_unit
  simp only [Option.getD_some, hc1, hc2, Bool.false_eq_true, if_false]
  cases kind with
  | swap =>
    obtain ⟨hl1, hg1, hl2, hg2⟩ :=
      entanglement_swap_spec cfg P.p_swap (resolveCutoff P) P.cut_type P.t_coh
        pmf1 w1 pmf2 w2 hz1 hz2
    exact ⟨_, _, rfl, hl1, by rw [scrub_clamp_length]; exact hl2, hg1, hg2,
      fun t => scrub_clamp_getD_mem _ t⟩
  | dist =>
    obtain ⟨hl1, hg1, hl2, hg2⟩ :=
      destillation_spec cfg (resolveCutoff P) P.cut_type P.t_coh pmf1 w1 pmf2 w2 hz1 hz2
    exact ⟨_, _, rfl, hl1, by rw [scrub_clamp_length]; exact hl2, hg1, hg2,
      fun t => scrub_clamp_getD_mem _ t⟩

/-- C1 (amended): every successful `compute_unit` call (swap or distill)
on link states of common length `T_trunc` with `pmf1[0] = pmf2[0] = 0`
returns arrays with `len(pmf) = len(w) = T_trunc`, `pmf[0] = 0` and every
`w[t]` clamped to `[0, 1]`; however `w[0] = 0`, not `1` as claimed: index
0 is excluded from the normalisation (source line 299) and the NaN-to-1
scrub only fires on 0/0, which cannot occur at index 0. -/
theorem compute_unit_invariants (cfg : SimConfig) (P : UnitParams)
    (kind : UnitKind) (pmf1 w1 pmf2 w2 : List ℚ)
    (hz1 : pmf1.getD 0 0 = 0) (hz2 : pmf2.getD 0 0 = 0)
    (hc1 : ((P.cut_type == CutType.memory_time || P.cut_type == CutType.run_time)
        && !(resolveCutoff P).isInt) = false)
    (hc2 : (P.cut_type == CutType.fidelity && fidelityCheckFails (resolveCutoff P)) = false) :
    ∃ pmf w, compute_unit cfg P pmf1 w1 (some pmf2) (some w2) kind = .ok (pmf, w) ∧
      pmf.length = pmf1.length ∧ w.length = pmf1.length ∧
      pmf.getD 0 0 = 0 ∧ w.getD 0 0 = 0 ∧
      ∀ t, 0 ≤ w.getD t 0 ∧ w.getD t 0 ≤ 1 :=
  compute_unit_props cfg P kind pmf1 w1 pmf2 w2 hz1 hz2 hc1 hc2

/-- C1 witness for `compute_unit_invariants`: a concrete valid swap call
with a memory-time cut-off. -/
theorem compute_unit_invariants_witness :
    (([(0 : ℚ), 1/2]).getD 0 0 = 0 ∧
      ((core_mt.cut_type == CutType.memory_time || core_mt.cut_type == CutType.run_time)
        && !(resolveCutoff core_mt).isInt) = false ∧
      (core_mt.cut_type == CutType.fidelity && fidelityCheckFails (resolveCutoff core_mt)) = false) ∧
    (∃ pmf w, compute_unit cfg0 core_mt [0, 1/2] [9/10, 9/10] (some [0, 1/2])
        (some [9/10, 9/10]) .swap = .ok (pmf, w) ∧
      pmf.length = ([(0 : ℚ), 1/2]).length ∧ w.length = ([(0 : ℚ), 1/2]).length ∧
      pmf.getD 0 0 = 0 ∧ w.getD 0 0 = 0 ∧
      ∀ t, 0 ≤ w.getD t 0 ∧ w.getD t 0 ≤ 1) :=
  ⟨⟨rfl, by decide, by decide⟩,
    compute_unit_invariants cfg0 core_mt .swap [0, 1/2] [9/10, 9/10] [0, 1/2]
      [9/10, 9/10] rfl rfl (by decide)
      (by decide)⟩

/-- C1 counterexample: on the valid swap call of the witness the returned
Werner array has `w[0] = 0`, contradicting the claimed convention
`w[0] = 1`. -/
theorem compute_unit_w0_counterexample :
    ∃ pmf w, compute_unit cfg0 core_mt [0, 1/2] [9/10, 9/10] (some [0, 1/2])
        (some [9/10, 9/10]) .swap = .ok (pmf, w) ∧
      w.getD 0 0 = 0 ∧ w.getD 0 0 ≠ 1 := by
  obtain ⟨pmf, w, hok, _, _, _, hw0, _⟩ :=
    compute_unit_props cfg0 core_mt .swap [0, 1/2] [9/10, 9/10] [0, 1/2]
      [9/10, 9/10] rfl rfl (by decide)
      (by decide)
  exact ⟨pmf, w, hok, hw0, by rw [hw0]; norm_num⟩

/-- C3: the fidelity range check of source line 461 is
`not (cutoff >= 0. or cutoff < 1.)`, which is false for every rational
cut-off (every number is either nonnegative or below 1), so the typed
configuration error is never raised; in particular a fidelity cut-off of
2, outside `[0, 1)`, is accepted and the unit is computed.  The error
message of line 462 documents the intended check (a value between 0 and
1), so the `or` is a slip for `and`: the code is wrong, the claim
matches the intent. -/
theorem fidelity_check_never_raises :
    (∀ c : ℚ, fidelityCheckFails c = false) ∧
    (compute_unit cfg0 core_fid [0, 1/2] [9/10, 9/10] none none .swap).isOk = true := by
  constructor
  · intro c
    unfold fidelityCheckFails
    rcases le_or_lt 0 c with h | h
    · simp [h]
    · simp [show c < 1 from lt_trans h one_pos]
  · decide

/-- C4: the symmetric driver with an empty protocol returns exactly the
elementary link: `pmf[0] = 0`, `pmf[t] = p_gen (1-p_gen)^(t-1)` for
`1 ≤ t < T_trunc`, and `w ≡ w0`, both of length `T_trunc` (source lines
589-595 with the protocol loop never entered). -/
theorem empty_protocol_elementary (cfg : SimConfig) (P : SymParams)
    (cache : SimCache) (hproto : P.protocol = [])
    (hp0 : 0 < P.core.p_gen) (hp1 : P.core.p_gen ≤ 1) (hn : 2 ≤ P.t_trunc) :
    nested_protocol cfg P cache =
      .ok ((elementary_pmf P.core.p_gen P.t_trunc,
        elementary_w P.core.w0 P.t_trunc), cache) ∧
    (elementary_pmf P.core.p_gen P.t_trunc).length = P.t_trunc ∧
    (elementary_w P.core.w0 P.t_trunc).length = P.t_trunc ∧
    (elementary_pmf P.core.p_gen P.t_trunc).getD 0 0 = 0 ∧
    (∀ t, 1 ≤ t → t < P.t_trunc →
      (elementary_pmf P.core.p_gen P.t_trunc).getD t 0 =
        P.core.p_gen * (1 - P.core.p_gen) ^ (t - 1)) ∧
    (∀ t, t < P.t_trunc →
      (elementary_w P.core.w0 P.t_trunc).getD t 0 = P.core.w0) := by
  have hp0' := hp0
  have hp1' := hp1
  refine ⟨?_, ?_, ?_, ?_, ?_, ?_⟩
  · unfold nested_protocol check_cache
    rw [hproto]
    simp [check_cache_go, nested_loop]
  · simp only [elementary_pmf, List.length_cons, List.length_map, List.length_range]
    omega
  · simp [elementary_w]
  · rfl
  · intro t h1t htn
    obtain ⟨k, rfl⟩ : ∃ k, t = k + 1 := ⟨t - 1, by omega⟩
    simp only [elementary_pmf, List.getD_cons_succ]
    rw [map_range_getD _ _ _ (by omega)]
    simp
  · intro t htn
    unfold elementary_w
    rw [List.getD_eq_getElem _ _ (by simpa using htn)]
    simp

/-- C4 witness for `empty_protocol_elementary`: a concrete empty-protocol
run with `p_gen = 1/2`, `T_trunc = 3`. -/
theorem empty_protocol_elementary_witness :
    (0 < core_mt.p_gen ∧ core_mt.p_gen ≤ 1 ∧ (2 : ℕ) ≤ 3) ∧
    nested_protocol cfg0 { core := core_mt, protocol := [], t_trunc := 3 } [] =
      .ok ((elementary_pmf core_mt.p_gen 3, elementary_w core_mt.w0 3), []) :=
  ⟨⟨by norm_num [core_mt], by norm_num [core_mt], by norm_num⟩,
    (empty_protocol_elementary cfg0
      { core := core_mt, protocol := [], t_trunc := 3 } [] rfl
      (by norm_num [core_mt]) (by norm_num [core_mt]) (by norm_num)).1⟩

/-- C10: in the symmetric driver a protocol step whose integer tag is
neither 0 (swap) nor 1 (dist) falls through both branches of the dispatch
(source lines 614-619): no error is raised and the `(pmf, w)` state is
passed through unchanged, with the loop simply advancing (and caching the
unchanged state when memoization is on). -/
theorem unknown_op_skipped (cfg : SimConfig) (core : UnitParams) (op : ℤ)
    (s : List ℚ × List ℚ) (h0 : op ≠ 0) (h1 : op ≠ 1) :
    unit_step cfg core op s = .ok s ∧
    ∀ done rest cache, nested_loop cfg core done (op :: rest) s cache =
      nested_loop cfg core (done ++ [op]) rest s
        (if cfg.useCache then ((core, done ++ [op]), s) :: cache else cache) := by
  have hs : unit_step cfg core op s = .ok s := by
    unfold unit_step
    rw [if_neg h0, if_neg h1]
  exact ⟨hs, fun done rest cache => by simp only [nested_loop, hs]; rfl⟩

/-- C10 witness for `unknown_op_skipped`: the tag 7 is skipped. -/
theorem unknown_op_skipped_witness :
    ((7 : ℤ) ≠ 0 ∧ (7 : ℤ) ≠ 1) ∧
    unit_step cfg0 core_mt 7 ([0, 1], [1, 1]) = .ok ([0, 1], [1, 1]) :=
  ⟨⟨by decide, by decide⟩,
    (unknown_op_skipped cfg0 core_mt 7 ([0, 1], [1, 1])
      (by decide) (by decide)).1⟩

theorem except_bind_ok {α β ε : Type} (a : α) (f : α → Except ε β) :
    (Except.ok a : Except ε α) >>= f = f a := rfl

theorem except_bind_err {α β ε : Type} (e : ε) (f : α → Except ε β) :
    (Except.error e : Except ε α) >>= f = .error e := rfl

theorem check_cache_go_nil (core : UnitParams) (protocol : List ℤ) (tNew : ℕ) :
    ∀ i, check_cache_go core protocol tNew [] i = (0, none) := by
  intro i
  induction i with
  | zero => rfl
  | succ i ih => simp [check_cache_go, cacheFind, ih]

theorem cacheFind_cons_self (key : CacheKey) (v : List ℚ × List ℚ)
    (rest : SimCache) : cacheFind ((key, v) :: rest) key = some v := by
  unfold cacheFind
  have h : List.find? (fun e => decide (e.1 = key)) ((key, v) :: rest) =
      some (key, v) :=
    List.find?_cons_of_pos _ (by simp)
  rw [h]
  rfl

theorem entanglement_swap_lengths (cfg : SimConfig) (ps cutoff : ℚ)
    (ct : CutType) (tc : Option ℚ) (pmf1 w1 pmf2 w2 : List ℚ) :
    (entanglement_swap cfg ps cutoff ct tc pmf1 w1 pmf2 w2).1.length = pmf1.length ∧
    (entanglement_swap cfg ps cutoff ct tc pmf1 w1 pmf2 w2).2.length = pmf1.length := by
  simp only [entanglement_swap]
  constructor
  · rw [iterative_convolution_length, iterative_convolution_length, join_links_length]
  · rw [divide_w_length, iterative_convolution_length, iterative_convolution_length,
      join_links_length]

theorem destillation_lengths (cfg : SimConfig) (cutoff : ℚ) (ct : CutType)
    (tc : Option ℚ) (pmf1 w1 pmf2 w2 : List ℚ) :
    (destillation cfg cutoff ct tc pmf1 w1 pmf2 w2).1.length = pmf1.length ∧
    (destillation cfg cutoff ct tc pmf1 w1 pmf2 w2).2.length = pmf1.length := by
  simp only [destillation]
  constructor
  · rw [iterative_convolution_length, iterative_convolution_length, join_links_length]
  · rw [divide_w_length, iterative_convolution_length, iterative_convolution_length,
      join_links_length]

theorem compute_unit_ok_length (cfg : SimConfig) (P : UnitParams)
    (pmf1 w1 : List ℚ) (pmf2? w2? : Option (List ℚ)) (kind : UnitKind)
    (pmf w : List ℚ)
    (h : compute_unit cfg P pmf1 w1 pmf2? w2? kind = .ok (pmf, w)) :
    pmf.length = pmf1.length ∧ w.length = pmf1.length := by
  cases kind with
  | swap =>
    have hl := entanglement_swap_lengths cfg P.p_swap (resolveCutoff P) P.cut_type
      P.t_coh pmf1 w1 (pmf2?.getD pmf1) (w2?.getD w1)
    simp only [compute_unit] at h
    split at h
    · simp at h
    · split at h
      · simp at h
      · rw [Except.ok.injEq, Prod.mk.injEq] at h
        refine ⟨?_, ?_⟩
        · rw [← h.1]; exact hl.1
        · rw [← h.2, scrub_clamp_length]; exact hl.2
  | dist =>
    have hl := destillation_lengths cfg (resolveCutoff P) P.cut_type
      P.t_coh pmf1 w1 (pmf2?.getD pmf1) (w2?.getD w1)
    simp only [compute_unit] at h
    split at h
    · simp at h
    · split at h
      · simp at h
      · rw [Except.ok.injEq, Prod.mk.injEq] at h
        refine ⟨?_, ?_⟩
        · rw [← h.1]; exact hl.1
        · rw [← h.2, scrub_clamp_length]; exact hl.2

theorem unit_step_ok_length (cfg : SimConfig) (core : UnitParams) (op : ℤ)
    (s s' : List ℚ × List ℚ) (h : unit_step cfg core op s = .ok s') :
    s'.1.length = s.1.length := by
  unfold unit_step at h
  split at h
  · exact (compute_unit_ok_length cfg core s.1 s.2 none none .swap s'.1 s'.2 h).1
  · split at h
    · exact (compute_unit_ok_length cfg core s.1 s.2 none none .dist s'.1 s'.2 h).1
    · rw [Except.ok.injEq] at h
      rw [← h]

theorem nested_loop_len (cfg : SimConfig) (core : UnitParams) :
    ∀ (rest done : List ℤ) (s : List ℚ × List ℚ) (cache : SimCache)
      (r : List ℚ × List ℚ) (c' : SimCache),
      nested_loop cfg core done rest s cache = .ok (r, c') →
      r.1.length = s.1.length := by
  intro rest
  induction rest with
  | nil =>
    intro done s cache r c' h
    simp only [nested_loop, Except.ok.injEq, Prod.mk.injEq] at h
    rw [← h.1]
  | cons op rest ih =>
    intro done s cache r c' h
    cases hu : unit_step cfg core op s with
    | error e =>
      rw [nested_loop, hu, except_bind_err] at h
      simp at h
    | ok s' =>
      rw [nested_loop, hu, except_bind_ok] at h
      rw [ih _ _ _ _ _ h]
      exact unit_step_ok_length cfg core op s s' hu

theorem nested_loop_fst_indep (cfg : SimConfig) (core : UnitParams) :
    ∀ (rest done done' : List ℤ) (s : List ℚ × List ℚ) (cache cache' : SimCache),
      (nested_loop cfg core done rest s cache).map (·.1) =
        (nested_loop { cfg with useCache := false } core done' rest s cache').map (·.1) := by
  intro rest
  induction rest with
  | nil => intro done done' s cache cache'; rfl
  | cons op rest ih =>
    intro done done' s cache cache'
    have hstep : unit_step { cfg with useCache := false } core op s =
        unit_step cfg core op s := rfl
    cases hu : unit_step cfg core op s with
    | error e =>
      rw [nested_loop, nested_loop, hu, hstep, hu, except_bind_err, except_bind_err]
    | ok s' =>
      rw [nested_loop, nested_loop, hu, hstep, hu, except_bind_ok, except_bind_ok]
      exact ih _ _ _ _ _

theorem nested_loop_cache_head (cfg : SimConfig) (core : UnitParams)
    (huse : cfg.useCache = true) :
    ∀ (rest done : List ℤ) (s : List ℚ × List ℚ) (cache : SimCache)
      (r : List ℚ × List ℚ) (c' : SimCache),
      rest ≠ [] →
      nested_loop cfg core done rest s cache = .ok (r, c') →
      ∃ tail, c' = ((core, done ++ rest), r) :: tail := by
  intro rest
  induction rest with
  | nil => intro done s cache r c' hne _; exact absurd rfl hne
  | cons op rest ih =>
    intro done s cache r c' _ h
    cases hu : unit_step cfg core op s with
    | error e =>
      rw [nested_loop, hu, except_bind_err] at h
      simp at h
    | ok s' =>
      rw [nested_loop, hu, except_bind_ok, huse] at h
      simp only [if_true] at h
      cases rest with
      | nil =>
        simp only [nested_loop, Except.ok.injEq, Prod.mk.injEq] at h
        refine ⟨cache, ?_⟩
        rw [← h.2, ← h.1]
      | cons op2 rest2 =>
        obtain ⟨tail, htail⟩ := ih (done ++ [op]) s'
          (((core, done ++ [op]), s') :: cache) r c' (by simp) h
        refine ⟨tail, ?_⟩
        rw [htail]
        simp

/-- C2 (amended): with memoization enabled and an empty cache, the
symmetric driver returns arrays identical (bit-for-bit in the exact
model) to the no-memoization run; and when the same run was previously
cached at a horizon `T_trunc >= T`, a request at the smaller horizon `T`
resumes from the longest cached prefix (here the full protocol) and
returns the cached full-horizon arrays unchanged — it does *not*
truncate them to the requested `T_trunc` (`nested_protocol` never slices
the cached arrays, source lines 582-587 and 630-635). -/
theorem cache_equivalence :
    (∀ (cfg : SimConfig) (P : SymParams),
      (nested_protocol cfg P []).map (·.1) =
        (nested_protocol { cfg with useCache := false } P []).map (·.1)) ∧
    (∀ (cfg : SimConfig) (P : SymParams) (r : List ℚ × List ℚ)
      (c1 : SimCache) (T : ℕ),
      cfg.useCache = true → P.protocol ≠ [] → 1 ≤ P.t_trunc → T ≤ P.t_trunc →
      nested_protocol cfg P [] = .ok (r, c1) →
      nested_protocol cfg { P with t_trunc := T } c1 = .ok (r, c1)) := by
  constructor
  · intro cfg P
    have h1 : check_cache P [] = (0, none) := by
      unfold check_cache
      exact check_cache_go_nil _ _ _ _
    simp only [nested_protocol, h1, ite_self]
    exact nested_loop_fst_indep cfg P.core _ _ _ _ _ _
  · intro cfg P r c1 T huse hne hT1 hT hrun
    have hic : check_cache P [] = (0, none) := by
      unfold check_cache
      exact check_cache_go_nil _ _ _ _
    simp only [nested_protocol, huse, if_true, hic, List.take_zero,
      List.drop_zero] at hrun
    have hlen : r.1.length = P.t_trunc := by
      rw [nested_loop_len cfg P.core P.protocol [] _ [] r c1 hrun]
      simp only [elementary_pmf, List.length_cons, List.length_map,
        List.length_range]
      omega
    obtain ⟨tail, htail⟩ :=
      nested_loop_cache_head cfg P.core huse P.protocol [] _ [] r c1 hne hrun
    rw [List.nil_append] at htail
    have hfind : cacheFind c1 (P.core, P.protocol) = some r := by
      rw [htail]
      exact cacheFind_cons_self _ _ _
    obtain ⟨m, hm⟩ : ∃ m, P.protocol.length = m + 1 := by
      cases hp : P.protocol with
      | nil => exact absurd hp hne
      | cons a l => exact ⟨l.length, by simp [hp]⟩
    have htake : P.protocol.take (m + 1) = P.protocol := by
      rw [← hm]
      simp
    have hcc : check_cache { P with t_trunc := T } c1 = (m + 1, some r) := by
      unfold check_cache
      show check_cache_go P.core P.protocol T c1 P.protocol.length = _
      rw [hm, check_cache_go, htake, hfind]
      show (if T ≤ r.1.length then (m + 1, some r)
        else check_cache_go P.core P.protocol T c1 m) = (m + 1, some r)
      rw [if_pos (show T ≤ r.1.length from by rw [hlen]; exact hT)]
    simp only [nested_protocol, huse, if_true, hcc, ← hm]
    simp only [List.take_length, List.drop_length]
    rfl

/-- The cache state and result of the concrete first call (`symP1`,
horizon 3) with memoization on: the unknown tag `7` is skipped and the
elementary link is cached under the prefix `[7]`. -/
theorem first_call_eval :
    nested_protocol cfgCache symP1 [] =
      .ok ((elementary_pmf (1/2) 3, elementary_w (9/10) 3), cacheAfterFirst) := rfl

/-- The concrete second call at the smaller horizon 2 resumes from the
cached prefix and returns the horizon-3 arrays unchanged. -/
theorem second_call_eval :
    nested_protocol cfgCache symP2 cacheAfterFirst =
      .ok ((elementary_pmf (1/2) 3, elementary_w (9/10) 3), cacheAfterFirst) := by
  have hfind : cacheFind cacheAfterFirst (core_mt, [7]) =
      some (elementary_pmf (1/2) 3, elementary_w (9/10) 3) :=
    cacheFind_cons_self _ _ _
  have hcc : check_cache symP2 cacheAfterFirst =
      (1, some (elementary_pmf (1/2) 3, elementary_w (9/10) 3)) := by
    unfold check_cache
    show check_cache_go core_mt [7] 2 cacheAfterFirst 1 = _
    rw [check_cache_go]
    rw [show ([(7 : ℤ)]).take 1 = [7] from rfl, hfind]
    rfl
  simp only [nested_protocol, hcc]
  rfl

/-- C2 witness for `cache_equivalence`: the concrete cached re-run at the
smaller horizon returns the full horizon-3 arrays. -/
theorem cache_equivalence_witness :
    (cfgCache.useCache = true ∧ symP1.protocol ≠ [] ∧ 1 ≤ symP1.t_trunc ∧
      (2 : ℕ) ≤ symP1.t_trunc) ∧
    nested_protocol cfgCache { symP1 with t_trunc := 2 } cacheAfterFirst =
      .ok ((elementary_pmf (1/2) 3, elementary_w (9/10) 3), cacheAfterFirst) :=
  ⟨⟨rfl, by decide, by decide, by decide⟩,
    cache_equivalence.2 cfgCache symP1 _ _ 2 rfl (by decide) (by decide)
      (by decide) first_call_eval⟩

/-- C2 counterexample: after caching the run at horizon 3, re-running the
same parameters at the requested horizon `T_trunc = 2` returns arrays of
length 3 — the cached full-horizon result — whereas the claim says the
returned arrays equal the no-cache run truncated to the requested
`T_trunc`, which has length 2. -/
theorem cache_truncation_counterexample :
    nested_protocol cfgCache symP1 [] =
      .ok ((elementary_pmf (1/2) 3, elementary_w (9/10) 3), cacheAfterFirst) ∧
    nested_protocol cfgCache symP2 cacheAfterFirst =
      .ok ((elementary_pmf (1/2) 3, elementary_w (9/10) 3), cacheAfterFirst) ∧
    nested_protocol { cfgCache with useCache := false } symP2 [] =
      .ok ((elementary_pmf (1/2) 2, elementary_w (9/10) 2), []) ∧
    (elementary_pmf (1/2) 3).length = 3 ∧ (elementary_pmf (1/2) 2).length = 2 ∧
    (3 : ℕ) ≠ 2 :=
  ⟨first_call_eval, second_call_eval, rfl, by simp [elementary_pmf],
    by simp [elementary_pmf], by decide⟩

theorem find_right_segment_go_spec (segments : SegList) (j : ℕ)
    (hjlen : j < segments.length) (hlive : segments.getD j none ≠ none) :
    ∀ (fuel r : ℕ), r ≤ j → (∀ k, r ≤ k → k < j → segments.getD k none = none) →
      j + 1 ≤ r + fuel →
      find_right_segment_go segments r fuel = .ok j := by
  intro fuel
  induction fuel with
  | zero => intro r hr hdead hfu; omega
  | succ fuel ih =>
    intro r hr hdead hfu
    rw [find_right_segment_go]
    rw [if_pos (show r < segments.length by omega)]
    rcases eq_or_lt_of_le hr with heq | hlt
    · subst heq
      cases hseg : segments.getD r none with
      | none => exact absurd hseg hlive
      | some v => rfl
    · cases hseg : segments.getD r none with
      | none =>
        exact ih (r + 1) (by omega)
          (fun k hk1 hk2 => hdead k (by omega) hk2) (by omega)
      | some v =>
        rw [hdead r le_rfl hlt] at hseg
        simp at hseg

theorem find_right_segment_spec (segments : SegList) (i j : ℕ)
    (hij : i < j) (hjlen : j < segments.length)
    (hlive : segments.getD j none ≠ none)
    (hdead : ∀ k, i < k → k < j → segments.getD k none = none) :
    find_right_segment segments i = .ok j := by
  unfold find_right_segment
  exact find_right_segment_go_spec segments j hjlen hlive (segments.length + 1)
    (i + 1) (by omega) (fun k hk1 hk2 => hdead k (by omega) hk2) (by omega)

theorem find_right_segment_go_dead (segments : SegList) :
    ∀ (fuel r : ℕ),
      (∀ k, r ≤ k → k < segments.length → segments.getD k none = none) →
      ∃ msg, find_right_segment_go segments r fuel = .error msg := by
  intro fuel
  induction fuel with
  | zero => intro r _; exact ⟨_, rfl⟩
  | succ fuel ih =>
    intro r hdead
    rw [find_right_segment_go]
    split
    · next hlt =>
      rw [hdead r le_rfl hlt]
      exact ih (r + 1) (fun k hk1 hk2 => hdead k (by omega) hk2)
    · exact ⟨_, rfl⟩

/-- C9: a SWAP step of the asymmetric driver (source lines 716-722)
consumes segment `idx` and the live segment with the smallest index
`j > idx`, stores the merged result at `j` and marks `idx` dead; and when
no live segment with index greater than `idx` exists,
`find_right_segment` raises (source line 643) and the step aborts with an
error, returning no result. -/
theorem asym_swap_step_spec (cfg : SimConfig) (core : UnitParams)
    (segments : SegList) (idx j : ℕ) (cur nxt res : List ℚ × List ℚ)
    (hij : idx < j) (hjlen : j < segments.length)
    (hjl : segments.getD j none = some nxt)
    (hdead : ∀ k, idx < k → k < j → segments.getD k none = none)
    (hcur : segments.getD idx none = some cur)
    (hcomp : compute_unit cfg core cur.1 cur.2 (some nxt.1) (some nxt.2) .swap =
      .ok res) :
    find_right_segment segments idx = .ok j ∧
    asym_swap_step cfg core segments idx =
      .ok ((segments.set idx none).set j (some res)) ∧
    (∀ (segments' : SegList) (idx' : ℕ),
      (∀ k, idx' < k → k < segments'.length → segments'.getD k none = none) →
      ∃ msg, asym_swap_step cfg core segments' idx' = .error msg) := by
  have hfr : find_right_segment segments idx = .ok j :=
    find_right_segment_spec segments idx j hij hjlen (by rw [hjl]; simp) hdead
  refine ⟨hfr, ?_, ?_⟩
  · unfold asym_swap_step
    rw [hfr, except_bind_ok, hcur, hjl]
    show (do
      let r ← compute_unit cfg core cur.1 cur.2 (some nxt.1) (some nxt.2)
        UnitKind.swap
      pure ((segments.set idx none).set j (some r))) =
      Except.ok ((segments.set idx none).set j (some res))
    rw [hcomp, except_bind_ok]
    rfl
  · intro segments' idx' hd
    obtain ⟨msg, hmsg⟩ := find_right_segment_go_dead segments'
      (segments'.length + 1) (idx' + 1) (fun k hk1 hk2 => hd k (by omega) hk2)
    refine ⟨msg, ?_⟩
    unfold asym_swap_step find_right_segment
    rw [hmsg, except_bind_err]

/-- C9 witness for `asym_swap_step_spec`: four hypotheses discharged on a
concrete three-segment list whose middle segment is dead. -/
theorem asym_swap_step_spec_witness :
    find_right_segment [some (([] : List ℚ), ([] : List ℚ)), none, some ([], [])] 0 =
      .ok 2 ∧
    asym_swap_step cfg0 core_mt
        [some (([] : List ℚ), ([] : List ℚ)), none, some ([], [])] 0 =
      .ok ((([some (([] : List ℚ), ([] : List ℚ)), none, some ([], [])].set 0 none)).set 2
        (some ([], []))) := by
  have h := asym_swap_step_spec cfg0 core_mt
    [some (([] : List ℚ), ([] : List ℚ)), none, some ([], [])] 0 2
    ([], []) ([], []) ([], []) (by omega) (by simp)
    rfl (by intro k h1 h2; have hk : k = 1 := (by omega); rw [hk]; rfl) rfl rfl
  exact ⟨h.1, h.2.1⟩

/-- C5: the heterogeneous asymmetric driver does not clear the
`efficient` backend flag — the assignment `self.efficient = False` on
source line 737 is commented out — so with the default configuration
(`efficient = True`, line 54) and the default cut type `memory_time`
(line 431) the swap unit selects the efficient memory-time join path
(line 248), contradicting the claim that heterogeneous mode never uses
it. -/
theorem hetero_selects_efficient_join :
    swap_uses_efficient_join (hetero_efficient initial_efficient)
      default_cut_type = true := rfl

theorem cexp_pi_div_two :
    Complex.exp (((Real.pi / 2 : ℝ) : ℂ) * Complex.I) = Complex.I := by
  rw [Complex.exp_mul_I, ← Complex.ofReal_cos, ← Complex.ofReal_sin,
    Real.cos_pi_div_two, Real.sin_pi_div_two]
  push_cast
  ring

theorem cexp_neg_pi_div_two :
    Complex.exp (((-(Real.pi / 2) : ℝ) : ℂ) * Complex.I) = -Complex.I := by
  rw [Complex.exp_mul_I, ← Complex.ofReal_cos, ← Complex.ofReal_sin,
    Real.cos_neg, Real.sin_neg, Real.cos_pi_div_two, Real.sin_pi_div_two]
  push_cast
  ring

theorem cexp_quarter (j : ℕ) :
    Complex.exp ((2 * (Real.pi : ℂ) * Complex.I * (j : ℂ)) / 4) = Complex.I ^ j := by
  induction j with
  | zero => simp
  | succ j ih =>
    have h : (2 * (Real.pi : ℂ) * Complex.I * ((j + 1 : ℕ) : ℂ)) / 4 =
        (2 * (Real.pi : ℂ) * Complex.I * (j : ℂ)) / 4 +
          ((Real.pi / 2 : ℝ) : ℂ) * Complex.I := by
      push_cast
      ring
    rw [h, Complex.exp_add, ih, cexp_pi_div_two, pow_succ]

theorem cexp_neg_quarter (j : ℕ) :
    Complex.exp (-(2 * (Real.pi : ℂ) * Complex.I * (j : ℂ)) / 4) =
      (-Complex.I) ^ j := by
  induction j with
  | zero => simp
  | succ j ih =>
    have h : -(2 * (Real.pi : ℂ) * Complex.I * ((j + 1 : ℕ) : ℂ)) / 4 =
        -(2 * (Real.pi : ℂ) * Complex.I * (j : ℂ)) / 4 +
          ((-(Real.pi / 2) : ℝ) : ℂ) * Complex.I := by
      push_cast
      ring
    rw [h, Complex.exp_add, ih, cexp_neg_pi_div_two, pow_succ]

theorem cexp_neg_q1 :
    Complex.exp (-(2 * (Real.pi : ℂ) * Complex.I) / 4) = -Complex.I := by
  have h := cexp_neg_quarter 1
  norm_num at h
  exact h

theorem cexp_neg_q2 :
    Complex.exp (-(2 * (Real.pi : ℂ) * Complex.I * 2) / 4) = -1 := by
  have h := cexp_neg_quarter 2
  norm_num [pow_succ] at h
  exact h

theorem cexp_neg_q3 :
    Complex.exp (-(2 * (Real.pi : ℂ) * Complex.I * 3) / 4) = Complex.I := by
  have h := cexp_neg_quarter 3
  norm_num [pow_succ] at h
  exact h

theorem cexp_q1 : Complex.exp (2 * (Real.pi : ℂ) * Complex.I / 4) = Complex.I := by
  have h := cexp_quarter 1
  norm_num at h
  exact h

theorem cexp_q2 : Complex.exp (2 * (Real.pi : ℂ) * Complex.I * 2 / 4) = -1 := by
  have h := cexp_quarter 2
  norm_num [pow_succ] at h
  exact h

theorem cexp_q3 :
    Complex.exp (2 * (Real.pi : ℂ) * Complex.I * 3 / 4) = -Complex.I := by
  have h := cexp_quarter 3
  norm_num [pow_succ] at h
  exact h

theorem cexp_q6 : Complex.exp (2 * (Real.pi : ℂ) * Complex.I * 6 / 4) = -1 := by
  have h := cexp_quarter 6
  have h6 : Complex.I ^ 6 = -1 := by
    rw [show (6 : ℕ) = 2 * 3 from rfl, pow_mul, Complex.I_sq]
    norm_num
  rw [h6] at h
  norm_num at h
  exact h

theorem cexp_q9 :
    Complex.exp (2 * (Real.pi : ℂ) * Complex.I * 9 / 4) = Complex.I := by
  have h := cexp_quarter 9
  have h9 : Complex.I ^ 9 = Complex.I := by
    rw [show (9 : ℕ) = 2 * 4 + 1 from rfl, pow_succ, pow_mul, Complex.I_sq]
    norm_num
  rw [h9] at h
  norm_num at h
  exact h

theorem np_ifft_length (y : List ℂ) (n : ℕ) : (np_ifft y n).length = n := by
  simp [np_ifft]

/-- C8 (amended): the "zero-padding too small" warning of the FFT branch
tests the modulus of the *last entry of the padded, length-`shape`
inverse transform* (index `shape - 1`, read on source line 192 before the
truncation of line 201), not the last retained sample: for `T_trunc ≥ 2`
the tested index `shape - 1 ≥ T_trunc` lies outside the retained prefix.
The warning fires exactly when that modulus exceeds `10e-16 = 10^(-15)`,
and the truncated result (the first `T_trunc` real parts) is returned
whether or not the warning fired. -/
theorem fft_warning_semantics (func first_func : List ℚ) (n shift : ℕ)
    (p : Option ℚ) (hn : 2 ≤ n) :
    n ≤ fft_shape n - 1 ∧
    (iterative_convolution_helper_fft func first_func n shift p).length = n ∧
    (fft_padding_warning func first_func n shift p ↔
      1 / 10 ^ 15 < Complex.abs
        ((iterative_convolution_helper_fft_raw func first_func n shift p).getD
          (fft_shape n - 1) 0)) := by
  have hge : 2 * n - 1 ≤ fft_shape n :=
    (Nat.le_pow_iff_clog_le (by norm_num)).mpr le_rfl
  refine ⟨by omega, ?_, Iff.rfl⟩
  unfold iterative_convolution_helper_fft iterative_convolution_helper_fft_raw
  rw [List.length_map, List.length_take, np_ifft_length]
  omega

/-- C8 witness for `fft_warning_semantics` at `T_trunc = 2`. -/
theorem fft_warning_semantics_witness :
    (2 : ℕ) ≤ 2 ∧
    (2 ≤ fft_shape 2 - 1 ∧
      (iterative_convolution_helper_fft [0, 0] [0, 1] 2 0 none).length = 2 ∧
      (fft_padding_warning [0, 0] [0, 1] 2 0 none ↔
        1 / 10 ^ 15 < Complex.abs
          ((iterative_convolution_helper_fft_raw [0, 0] [0, 1] 2 0 none).getD
            (fft_shape 2 - 1) 0))) :=
  ⟨by norm_num, fft_warning_semantics [0, 0] [0, 1] 2 0 none (by norm_num)⟩

/-- C8 counterexample: with `func = [0, 0]`, `first_func = [0, 1]`,
`T_trunc = 2`, no `p_swap` and no shift, the padded inverse transform is
`[0, 1, 0, 0]` (shape 4): the tested sample at index 3 is 0, so no
warning is emitted, although the last retained sample (index
`T_trunc - 1 = 1` of the truncated output) has magnitude 1 > 10^(-15) —
refuting the claimed "if and only if". -/
theorem fft_warning_counterexample :
    ¬ fft_padding_warning [0, 0] [0, 1] 2 0 none ∧
    1 / 10 ^ 15 < |(iterative_convolution_helper_fft [0, 0] [0, 1] 2 0 none).getD 1 0| := by
  have hshape : fft_shape 2 = 4 := by
    unfold fft_shape
    norm_num [Nat.clog]
  have hcf : np_fft [0, 1] 4 = [1, -Complex.I, -1, Complex.I] := by
    unfold np_fft
    simp only [List.range_succ, List.range_zero, List.map_append, List.map_cons,
      List.map_nil, List.sum_append, List.sum_cons, List.sum_nil,
      List.nil_append, List.cons_append]
    norm_num [cexp_neg_quarter, cexp_neg_q1, cexp_neg_q2, cexp_neg_q3]
  have hff : np_fft [0, 0] 4 = [0, 0, 0, 0] := by
    unfold np_fft
    simp only [List.range_succ, List.range_zero, List.map_append, List.map_cons,
      List.map_nil, List.sum_append, List.sum_cons, List.sum_nil,
      List.nil_append, List.cons_append]
    norm_num
  have hq : fft_quotient [1, -Complex.I, -1, Complex.I] [0, 0, 0, 0] none 4 =
      [1, -Complex.I, -1, Complex.I] := by
    unfold fft_quotient
    simp only [List.range_succ, List.range_zero, List.map_append, List.map_cons,
      List.map_nil, List.nil_append, List.cons_append]
    norm_num
  have hifft : np_ifft [1, -Complex.I, -1, Complex.I] 4 = [0, 1, 0, 0] := by
    unfold np_ifft
    simp only [List.range_succ, List.range_zero, List.map_append, List.map_cons,
      List.map_nil, List.sum_append, List.sum_cons, List.sum_nil,
      List.nil_append, List.cons_append]
    norm_num [cexp_quarter, Complex.I_sq, Complex.I_mul_I, pow_succ,
      cexp_q1, cexp_q2, cexp_q3, cexp_q6, cexp_q9]
  have hraw : iterative_convolution_helper_fft_raw [0, 0] [0, 1] 2 0 none =
      [0, 1, 0, 0] := by
    unfold iterative_convolution_helper_fft_raw
    rw [hshape, show shiftFunc [0, 0] 0 2 = [0, 0] from rfl, hcf, hff, hq, hifft]
  constructor
  · unfold fft_padding_warning
    rw [hraw, hshape]
    norm_num
  · have hfft : iterative_convolution_helper_fft [0, 0] [0, 1] 2 0 none =
        [0, 1] := by
      unfold iterative_convolution_helper_fft
      rw [hraw]
      norm_num
    rw [hfft]
    norm_num
